import Mathlib

/-!
Verification of the insurance-policy analysis pipeline in `model.py`
(`InsurancePolicyAnalyzer`): `identify_loopholes`, `summarize_policy` and
`analyze_policy`.  Text is modelled as `List Char`; the external sentence
segmenter is modelled as a parameter supplying the list of sentence texts.
-/

namespace DS

abbrev Str := List Char

/-- Convert a Lean string literal to the `List Char` representation. -/
def str (s : String) : Str := s.toList

/-- ASCII model of the regex word character class: letters, digits, underscore. -/
def isWordChar (c : Char) : Bool := c.isAlphanum || c = '_'

/-- ASCII model of Python whitespace (the regex space class and `str.strip`). -/
def isSpaceChar (c : Char) : Bool :=
  c = ' ' || c = '\t' || c = '\n' || c = '\r' || c = '\x0c' || c = '\x0b'

/-- Lowercasing, modelling `str.lower()` on ASCII text. -/
def lower (s : Str) : Str := s.map Char.toLower

/-- `startsWith n h` : the haystack `h` begins with the needle `n`. -/
def startsWith : Str → Str → Bool
  | [], _ => true
  | _ :: _, [] => false
  | c :: cs, d :: ds => c = d && startsWith cs ds

/-- `containsSub n h` models Python `n in h` (substring test). -/
def containsSub (needle : Str) : Str → Bool
  | [] => needle.isEmpty
  | c :: cs => startsWith needle (c :: cs) || containsSub needle cs

/-- `str.strip()`: drop whitespace from both ends. -/
def trim (s : Str) : Str :=
  ((s.dropWhile isSpaceChar).reverse.dropWhile isSpaceChar).reverse

/-- Helper for `wordCount`: counts word starts; the flag records whether the
previous character was whitespace (or we are at the start). -/
def wcAux : Bool → Str → Nat
  | _, [] => 0
  | prevSp, c :: cs =>
      if isSpaceChar c then wcAux true cs
      else (if prevSp then 1 else 0) + wcAux false cs

/-- `len(s.split())`: the number of maximal whitespace-free runs. -/
def wordCount (s : Str) : Nat := wcAux true s

/-- Case-insensitive literal match of a lowercase pattern word at the head of
the input; returns the matched original characters and the rest. -/
def matchLit : Str → Str → Option (Str × Str)
  | [], s => some ([], s)
  | _ :: _, [] => none
  | w :: ws, c :: cs =>
      if c.toLower = w then
        match matchLit ws cs with
        | some (m, r) => some (c :: m, r)
        | none => none
      else none

/-- Model of a phrase regex such as `may\s+not`: the literal words matched
case-insensitively, separated by nonempty runs of whitespace (the greedy
`\s+` grabs the whole run, since no pattern word starts with whitespace). -/
def matchWords : List Str → Str → Option (Str × Str)
  | [], s => some ([], s)
  | [w], s => matchLit w s
  | w1 :: w2 :: ws, s =>
      match matchLit w1 s with
      | none => none
      | some (m1, r1) =>
          let sp := r1.takeWhile isSpaceChar
          let r2 := r1.dropWhile isSpaceChar
          if sp.isEmpty then none
          else
            match matchWords (w2 :: ws) r2 with
            | none => none
            | some (m2, r3) => some (m1 ++ sp ++ m2, r3)

/-- `re.findall` for a phrase pattern, instrumented with match positions:
scan left to right, emit each leftmost match, resume after it
(non-overlapping).  Fuel makes the recursion structural; `text.length`
fuel is always enough since every step consumes at least one character. -/
def scanPatF (p : List Str) : Nat → Nat → Str → List (Nat × Str)
  | 0, _, _ => []
  | _ + 1, _, [] => []
  | fuel + 1, i, c :: cs =>
      match matchWords p (c :: cs) with
      | some (m, r) =>
          if m.isEmpty then scanPatF p fuel (i + 1) cs
          else (i, m) :: scanPatF p fuel (i + m.length) r
      | none => scanPatF p fuel (i + 1) cs

/-- The matched substrings of `re.findall(pattern, text, re.IGNORECASE)`,
in scan (text) order. -/
def findAllPat (p : List Str) (t : Str) : List Str :=
  (scanPatF p t.length 0 t).map Prod.snd

/-- The five ambiguous-language phrase patterns, in the order of the source. -/
def ambiguousPatterns : List (List Str) :=
  [[str "may", str "not"],
   [str "subject", str "to"],
   [str "contingent", str "upon"],
   [str "at", str "discretion"],
   [str "as", str "determined", str "by"]]

/-- The Ambiguous Language scan: per pattern, all matches, appended in the
fixed pattern order (the `extend` loop of the source). -/
def ambiguousMatches (t : Str) : List Str :=
  (ambiguousPatterns.map (fun p => findAllPat p t)).flatten

/-- `c` is a sentence terminator of the `[.!]` character class. -/
def isTermChar (c : Char) : Bool := c = '.' || c = '!'

/-- Model of non-greedy `.*?[.!]`: consume characters (never a newline,
which `.` does not match) up to and including the first `.` or `!`;
fail if a newline or the end of input comes first. -/
def grabToTerm : Str → Option (Str × Str)
  | [] => none
  | c :: cs =>
      if isTermChar c then some ([c], cs)
      else if c = '\n' then none
      else
        match grabToTerm cs with
        | some (m, r) => some (c :: m, r)
        | none => none

/-- `prevIsWord prev`: the character before the current position is a word
character (`none` means start of text, which is never a word character). -/
def prevIsWord : Option Char → Bool
  | none => false
  | some d => isWordChar d

/-- The character after the keyword must not be a word character
(the trailing regex boundary, every keyword ending in a word character). -/
def boundaryAfter : Str → Bool
  | [] => true
  | c :: _ => !isWordChar c

/-- Match `\b{kw}\b.*?[.!]` at the current position: word boundary before,
case-insensitive literal keyword, word boundary after, then extend through
the next terminator. -/
def matchKwAt (kw : Str) (prev : Option Char) (s : Str) : Option (Str × Str) :=
  if prevIsWord prev then none
  else
    match matchLit kw s with
    | none => none
    | some (m1, r1) =>
        if boundaryAfter r1 then
          match grabToTerm r1 with
          | some (m2, r2) => some (m1 ++ m2, r2)
          | none => none
        else none

/-- `re.findall(fr'\b{kw}\b.*?[.!]', text, re.IGNORECASE)`: left-to-right
non-overlapping scan; `prev` is the character preceding the current
position, needed by the leading word boundary. -/
def scanKwF (kw : Str) : Nat → Option Char → Str → List Str
  | 0, _, _ => []
  | _ + 1, _, [] => []
  | fuel + 1, prev, c :: cs =>
      match matchKwAt kw prev (c :: cs) with
      | some (m, r) => m :: scanKwF kw fuel m.getLast? r
      | none => scanKwF kw fuel (some c) cs

/-- All matches of the keyword-to-terminator pattern over the full text. -/
def scanKw (kw : Str) (t : Str) : List Str := scanKwF kw t.length none t

/-- The exclusion-clause keywords, in source order. -/
def exclusionKeywords : List Str :=
  [str "not covered", str "excluded", str "limitation",
   str "pre-existing condition", str "waiting period"]

/-- The claim-rejection indicator keywords, in source order. -/
def rejectionKeywords : List Str :=
  [str "documentation required", str "proof of",
   str "must provide", str "conditional coverage"]

/-- Exclusion Clauses: per keyword, all matches, appended in keyword order. -/
def exclusionMatches (t : Str) : List Str :=
  (exclusionKeywords.map (fun kw => scanKw kw t)).flatten

/-- Claim Rejection Risks: same algorithm over the rejection keywords. -/
def rejectionMatches (t : Str) : List Str :=
  (rejectionKeywords.map (fun kw => scanKw kw t)).flatten

/-- `identify_loopholes`: the four fixed categories in insertion order;
Limitation Flags is initialised empty and never appended to. -/
def identify_loopholes (t : Str) : List (String × List Str) :=
  [("Ambiguous Language", ambiguousMatches t),
   ("Exclusion Clauses", exclusionMatches t),
   ("Limitation Flags", []),
   ("Claim Rejection Risks", rejectionMatches t)]

/-- Association-list lookup, modelling Python dict key access. -/
def lookupA {α β : Type} [DecidableEq α] (k : α) : List (α × β) → Option β
  | [] => none
  | (k1, v) :: rest => if k1 = k then some v else lookupA k rest

/-- The six key-section names, in source order. -/
def sectionNames : List Str :=
  [str "coverage", str "benefits", str "exclusions",
   str "claims", str "terms", str "conditions"]

/-- `str.capitalize()`: first character uppercased, the rest lowercased. -/
def capitalize : Str → Str
  | [] => []
  | c :: cs => c.toUpper :: cs.map Char.toLower

/-- `any(keyword in s for keyword in kws)`. -/
def hasAny (kws : List Str) (s : Str) : Bool := kws.any (fun k => containsSub k s)

/-- The negation/exclusion suppression test of `summarize_policy`:
the (lowercased) text contains neither `"not "` nor `"exclude"`. -/
def negFree (s : Str) : Bool :=
  !containsSub (str "not ") s && !containsSub (str "exclude") s

/-- Medical Benefits keywords. -/
def medicalKeywords : List Str :=
  [str "treatment", str "hospitalization", str "surgery", str "medical",
   str "health", str "care", str "consultation"]

/-- Financial Benefits keywords. -/
def financialKeywords : List Str :=
  [str "cashless", str "reimbursement", str "coverage", str "sum insured",
   str "premium", str "discount"]

/-- Additional Benefits keywords. -/
def additionalKeywords : List Str :=
  [str "renewal", str "bonus", str "tax", str "family", str "additional"]

/-- Coverage Highlights keywords. -/
def highlightKeywords : List Str := [str "covered", str "benefits", str "include"]

/-- Major Exclusions keywords. -/
def majorExclusionKeywords : List Str :=
  [str "not covered", str "excluded", str "exclusion", str "limitation"]

/-- One benefit category's accumulated (pre-dedup) list: the trimmed text of
every sentence with more than 5 words, a category keyword, and no negation;
all the checks of the source run on the stripped `sent_text`. -/
def benefitAcc (kws : List Str) (sents : List Str) : List Str :=
  sents.filterMap (fun sent =>
    let st := trim sent
    if decide (5 < wordCount st) && hasAny kws (lower st) && negFree (lower st)
    then some st else none)

/-- `list(dict.fromkeys(l))`: deduplicate keeping first occurrences;
`seen` holds the values already emitted. -/
def dedupFirst (seen : List Str) : List Str → List Str
  | [] => []
  | x :: xs =>
      if x ∈ seen then dedupFirst seen xs
      else x :: dedupFirst (x :: seen) xs

/-- The three benefit categories of the summary. -/
structure Benefits where
  medical : List Str
  financial : List Str
  additional : List Str
  deriving DecidableEq, Repr

/-- The summary record produced by `summarize_policy`; `keySections` and
`claimProcess` model Python dicts as association lists. -/
structure Summary where
  keySections : List (Str × List Str)
  coverageHighlights : List Str
  benefits : Benefits
  majorExclusions : List Str
  claimProcess : List (Str × Str)
  deriving DecidableEq, Repr

/-- `summarize_policy`, as a function of the sentence texts produced by the
external sentence segmenter (`doc.sents` in the source, document order). -/
def summarize_policy (sents : List Str) : Summary :=
  { keySections :=
      sectionNames.filterMap (fun sec =>
        let l := sents.filterMap (fun s =>
          if containsSub sec (lower s) && decide (5 < wordCount s)
          then some (trim s) else none)
        if l.isEmpty then none else some (capitalize sec, l.take 3))
  , coverageHighlights :=
      (sents.filterMap (fun s =>
        if hasAny highlightKeywords (lower s) && negFree (lower s)
        then some (trim s) else none)).take 5
  , benefits :=
      { medical := (dedupFirst [] (benefitAcc medicalKeywords sents)).take 5
      , financial := (dedupFirst [] (benefitAcc financialKeywords sents)).take 5
      , additional := (dedupFirst [] (benefitAcc additionalKeywords sents)).take 5 }
  , majorExclusions :=
      (sents.filterMap (fun s =>
        if hasAny majorExclusionKeywords (lower s)
        then some (trim s) else none)).take 5
  , claimProcess := [] }

/-- The full analysis result of `analyze_policy`. -/
structure AnalysisResult where
  loopholes : List (String × List Str)
  summary : Summary
  deriving DecidableEq, Repr

/-- `analyze_policy`: compose the loophole report on the full text with the
summary over the segmenter's sentences for that text. -/
def analyze_policy (t : Str) (sents : List Str) : AnalysisResult :=
  { loopholes := identify_loopholes t, summary := summarize_policy sents }

/-! ### Basic string lemmas -/

theorem startsWith_iff (n : Str) : ∀ h : Str, startsWith n h = true ↔ ∃ t, h = n ++ t := by
  induction n with
  | nil => intro h; simp [startsWith]
  | cons c cs ih =>
      intro h
      cases h with
      | nil => simp [startsWith]
      | cons d ds =>
          simp only [startsWith, Bool.and_eq_true, decide_eq_true_eq, ih ds]
          constructor
          · rintro ⟨rfl, t, rfl⟩; exact ⟨t, rfl⟩
          · rintro ⟨t, ht⟩
            simp only [List.cons_append, List.cons.injEq] at ht
            exact ⟨ht.1.symm, t, ht.2⟩

theorem containsSub_iff (n : Str) : ∀ s : Str, containsSub n s = true ↔ ∃ a b, s = a ++ n ++ b := by
  intro s
  induction s with
  | nil =>
      simp only [containsSub, List.isEmpty_iff]
      constructor
      · rintro rfl; exact ⟨[], [], rfl⟩
      · rintro ⟨a, b, h⟩
        rcases List.append_eq_nil.mp h.symm with ⟨h1, h2⟩
        exact (List.append_eq_nil.mp h1).2
  | cons c cs ih =>
      simp only [containsSub, Bool.or_eq_true, startsWith_iff, ih]
      constructor
      · rintro (⟨t, ht⟩ | ⟨a, b, hab⟩)
        · exact ⟨[], t, by simp [ht]⟩
        · exact ⟨c :: a, b, by simp [hab]⟩
      · rintro ⟨a, b, hab⟩
        cases a with
        | nil => exact Or.inl ⟨b, by simpa using hab⟩
        | cons a0 as =>
            right
            simp only [List.cons_append, List.cons.injEq] at hab
            exact ⟨as, b, hab.2⟩

theorem containsSub_trans {n m s : Str} (h1 : containsSub n m = true)
    (h2 : containsSub m s = true) : containsSub n s = true := by
  rw [containsSub_iff] at h1 h2 ⊢
  obtain ⟨a, b, rfl⟩ := h1
  obtain ⟨u, v, rfl⟩ := h2
  exact ⟨u ++ a, b ++ v, by simp⟩

theorem dropWhile_decomp (p : Char → Bool) (s : Str) : ∃ a, s = a ++ s.dropWhile p :=
  ⟨s.takeWhile p, (List.takeWhile_append_dropWhile p s).symm⟩

theorem trim_decomp (s : Str) : ∃ a b, s = a ++ trim s ++ b := by
  obtain ⟨a, ha⟩ := dropWhile_decomp isSpaceChar s
  obtain ⟨u, hu⟩ := dropWhile_decomp isSpaceChar (s.dropWhile isSpaceChar).reverse
  have hrev := congrArg List.reverse hu
  rw [List.reverse_reverse, List.reverse_append] at hrev
  refine ⟨a, u.reverse, ?_⟩
  show s = a ++ ((s.dropWhile isSpaceChar).reverse.dropWhile isSpaceChar).reverse ++ u.reverse
  rw [List.append_assoc, ← hrev]
  exact ha

theorem containsSub_of_trim {n s : Str} (h : containsSub n (lower (trim s)) = true) :
    containsSub n (lower s) = true := by
  obtain ⟨a, b, hs⟩ := trim_decomp s
  apply containsSub_trans h
  rw [containsSub_iff]
  refine ⟨lower a, lower b, ?_⟩
  calc lower s = lower (a ++ trim s ++ b) := by rw [← hs]
    _ = lower a ++ lower (trim s) ++ lower b := by simp [lower]

/-! ### Soundness of the keyword-to-terminator scanner -/

theorem matchLit_sound :
    ∀ (w s m r : Str), matchLit w s = some (m, r) →
      s = m ++ r ∧ m.map Char.toLower = w := by
  intro w
  induction w with
  | nil => intro s m r h; simp [matchLit] at h; simp [h.1, h.2]
  | cons wc ws ih =>
      intro s m r h
      cases s with
      | nil => simp [matchLit] at h
      | cons c cs =>
          simp only [matchLit] at h
          split at h
          · rename_i hc
            split at h
            · rename_i m1 r1 hm
              simp only [Option.some.injEq, Prod.mk.injEq] at h
              obtain ⟨hm1, hr1⟩ := h
              obtain ⟨hs1, hl1⟩ := ih cs m1 r1 hm
              subst hm1 hr1
              exact ⟨by simp [hs1], by simp [hl1, hc]⟩
            · simp at h
          · simp at h

/-- The normal form of a keyword-to-terminator match: the case-insensitively
matched keyword characters, then filler containing no terminator and no
newline, then the first terminator, inclusive. -/
def EntryShape (kw e : Str) : Prop :=
  ∃ m1 mid c, e = m1 ++ mid ++ [c] ∧ m1.map Char.toLower = kw ∧
    isTermChar c = true ∧ ∀ x ∈ mid, isTermChar x = false ∧ x ≠ '\n'

theorem grabToTerm_sound :
    ∀ (s m r : Str), grabToTerm s = some (m, r) →
      s = m ++ r ∧ ∃ mid c, m = mid ++ [c] ∧ isTermChar c = true ∧
        ∀ x ∈ mid, isTermChar x = false ∧ x ≠ '\n' := by
  intro s
  induction s with
  | nil => intro m r h; simp [grabToTerm] at h
  | cons c cs ih =>
      intro m r h
      simp only [grabToTerm] at h
      by_cases ht : isTermChar c = true
      · rw [if_pos ht] at h
        simp only [Option.some.injEq, Prod.mk.injEq] at h
        obtain ⟨hm, hr⟩ := h
        subst hm hr
        exact ⟨rfl, [], c, by simp, ht, by simp⟩
      · rw [if_neg ht] at h
        by_cases hn : c = '\n'
        · rw [if_pos hn] at h; simp at h
        · rw [if_neg hn] at h
          cases hg : grabToTerm cs with
          | none => rw [hg] at h; simp at h
          | some pr =>
              obtain ⟨m1, r1⟩ := pr
              rw [hg] at h
              simp only [Option.some.injEq, Prod.mk.injEq] at h
              obtain ⟨hm, hr⟩ := h
              subst hm hr
              obtain ⟨hs1, mid, tc, hmid, htc, hall⟩ := ih m1 r1 hg
              refine ⟨by simp [hs1], c :: mid, tc, by simp [hmid], htc, ?_⟩
              intro x hx
              rcases List.mem_cons.mp hx with rfl | hx2
              · exact ⟨by simpa using ht, hn⟩
              · exact hall x hx2

theorem matchKwAt_sound {kw : Str} {prev : Option Char} {s m r : Str}
    (h : matchKwAt kw prev s = some (m, r)) :
    prevIsWord prev = false ∧ s = m ++ r ∧ EntryShape kw m := by
  unfold matchKwAt at h
  split at h
  · simp at h
  · rename_i hp
    refine ⟨by simpa using hp, ?_⟩
    split at h
    · simp at h
    · rename_i m1 r1 hl
      split at h
      · rename_i hb
        split at h
        · rename_i m2 r2 hg
          simp only [Option.some.injEq, Prod.mk.injEq] at h
          obtain ⟨hm, hr⟩ := h
          subst hm hr
          obtain ⟨hs1, hlow⟩ := matchLit_sound kw s m1 r1 hl
          obtain ⟨hs2, mid, c, hm2, hc, hall⟩ := grabToTerm_sound r1 m2 r2 hg
          exact ⟨by rw [hs1, hs2]; simp,
                 m1, mid, c, by rw [hm2]; simp, hlow, hc, hall⟩
        · simp at h
      · simp at h

/-- The character just before the current position, given the consumed
characters `a` and the character (if any) that preceded them. -/
def lastOr (a : Str) (prev : Option Char) : Option Char :=
  match a.getLast? with
  | some d => some d
  | none => prev

theorem lastOr_nil (prev : Option Char) : lastOr [] prev = prev := rfl

theorem lastOr_of_getLast {a : Str} {d : Char} (h : a.getLast? = some d)
    (prev : Option Char) : lastOr a prev = some d := by
  simp [lastOr, h]

theorem lastOr_append (a b : Str) (prev : Option Char) :
    lastOr (a ++ b) prev = lastOr b (lastOr a prev) := by
  cases hb : b.getLast? with
  | none =>
      have : b = [] := by simpa using hb
      subst this
      simp [lastOr]
  | some d =>
      have hab : (a ++ b).getLast? = some d := by
        rw [List.getLast?_append_of_ne_nil]
        · exact hb
        · intro hbe; subst hbe; simp at hb
      rw [lastOr_of_getLast hab, lastOr_of_getLast hb]

theorem scanKwF_sound (kw : Str) :
    ∀ (fuel : Nat) (prev : Option Char) (s e : Str), e ∈ scanKwF kw fuel prev s →
      ∃ pre post, s = pre ++ e ++ post ∧
        prevIsWord (lastOr pre prev) = false ∧ EntryShape kw e := by
  intro fuel
  induction fuel with
  | zero => intro prev s e h; simp [scanKwF] at h
  | succ fl ih =>
      intro prev s e h
      cases s with
      | nil => simp [scanKwF] at h
      | cons c cs =>
          simp only [scanKwF] at h
          cases hk : matchKwAt kw prev (c :: cs) with
          | some pr =>
              obtain ⟨m, r⟩ := pr
              rw [hk] at h
              obtain ⟨hpw, hs, hshape⟩ := matchKwAt_sound hk
              rcases List.mem_cons.mp h with rfl | h2
              · exact ⟨[], r, by simpa using hs, by simpa [lastOr_nil], hshape⟩
              · obtain ⟨pre1, post1, hr, hpre1, hsh1⟩ := ih m.getLast? r e h2
                refine ⟨m ++ pre1, post1, ?_, ?_, hsh1⟩
                · rw [hs, hr]; simp
                · rw [lastOr_append]
                  have hm : m ≠ [] := by
                    obtain ⟨m1, mid, tc, hme, _, _, _⟩ := hshape
                    subst hme; simp
                  obtain ⟨d, hd⟩ :=
                    Option.isSome_iff_exists.mp (List.getLast?_isSome.mpr hm)
                  rw [lastOr_of_getLast hd prev]
                  rw [hd] at hpre1
                  exact hpre1
          | none =>
              rw [hk] at h
              obtain ⟨pre1, post1, hr, hpre1, hsh1⟩ := ih (some c) cs e h
              refine ⟨c :: pre1, post1, by simp [hr], ?_, hsh1⟩
              have : c :: pre1 = [c] ++ pre1 := rfl
              rw [this, lastOr_append]
              simpa [lastOr] using hpre1

/-! ### The phrase-pattern scanner: matches come in ascending text order -/

theorem matchWords_sound :
    ∀ (p : List Str) (s m r : Str), matchWords p s = some (m, r) → s = m ++ r := by
  intro p
  induction p with
  | nil => intro s m r h; simp [matchWords] at h; simp [h.1, h.2]
  | cons w1 ws ih =>
      intro s m r h
      cases ws with
      | nil => exact (matchLit_sound w1 s m r h).1
      | cons w2 ws2 =>
          simp only [matchWords] at h
          split at h
          · simp at h
          · rename_i m1 r1 hl
            split at h
            · simp at h
            · rename_i hsp
              split at h
              · simp at h
              · rename_i m2 r3 hw
                simp only [Option.some.injEq, Prod.mk.injEq] at h
                obtain ⟨hm, hr⟩ := h
                subst hm hr
                have h1 := (matchLit_sound w1 s m1 r1 hl).1
                have h2 := ih (r1.dropWhile isSpaceChar) m2 r3 hw
                calc s = m1 ++ r1 := h1
                  _ = m1 ++ (r1.takeWhile isSpaceChar ++ r1.dropWhile isSpaceChar) := by
                      rw [List.takeWhile_append_dropWhile]
                  _ = m1 ++ r1.takeWhile isSpaceChar ++ m2 ++ r3 := by rw [h2]; simp
                  _ = m1 ++ r1.takeWhile isSpaceChar ++ m2 ++ r3 := rfl

theorem matchWords_ne_nil {w : Str} {ws : List Str} {s m r : Str}
    (h : matchWords (w :: ws) s = some (m, r)) (hw : w ≠ []) : m ≠ [] := by
  cases ws with
  | nil =>
      intro hme
      have := (matchLit_sound w s m r h).2
      rw [hme] at this
      exact hw this.symm
  | cons w2 ws2 =>
      simp only [matchWords] at h
      split at h
      · simp at h
      · rename_i m1 r1 hl
        split at h
        · simp at h
        · split at h
          · simp at h
          · rename_i m2 r3 hw2
            simp only [Option.some.injEq, Prod.mk.injEq] at h
            intro hme
            rw [← h.1] at hme
            have hm1 : m1 ≠ [] := by
              intro hm1e
              have := (matchLit_sound w s m1 r1 hl).2
              rw [hm1e] at this
              exact hw this.symm
            simp [hm1] at hme

theorem scanPatF_ge (p : List Str) :
    ∀ (fuel i : Nat) (s : Str) (q : Nat × Str), q ∈ scanPatF p fuel i s → i ≤ q.1 := by
  intro fuel
  induction fuel with
  | zero => intro i s q h; simp [scanPatF] at h
  | succ fl ih =>
      intro i s q h
      cases s with
      | nil => simp [scanPatF] at h
      | cons c cs =>
          simp only [scanPatF] at h
          split at h
          · rename_i m r hk
            split at h
            · exact le_trans (Nat.le_succ i) (ih (i + 1) cs q h)
            · rcases List.mem_cons.mp h with rfl | h2
              · exact le_refl i
              · exact le_trans (Nat.le_add_right i m.length) (ih (i + m.length) r q h2)
          · exact le_trans (Nat.le_succ i) (ih (i + 1) cs q h)

theorem scanPatF_chain {w : Str} {ws : List Str} (hw : w ≠ []) :
    ∀ (fuel i : Nat) (s : Str),
      List.Chain' (· < ·) ((scanPatF (w :: ws) fuel i s).map Prod.fst) := by
  intro fuel
  induction fuel with
  | zero => intro i s; simp [scanPatF]
  | succ fl ih =>
      intro i s
      cases s with
      | nil => simp [scanPatF]
      | cons c cs =>
          simp only [scanPatF]
          cases hk : matchWords (w :: ws) (c :: cs) with
          | some pr =>
              obtain ⟨m, r⟩ := pr
              have hm : m ≠ [] := matchWords_ne_nil hk hw
              simp only [hk]
              rw [if_neg (by simpa [List.isEmpty_iff] using hm)]
              rw [List.map_cons]
              rw [List.chain'_cons']
              refine ⟨?_, ih (i + m.length) r⟩
              intro b hb
              have hbm : ∃ q ∈ scanPatF (w :: ws) fl (i + m.length) r, q.1 = b := by
                cases hsc : (scanPatF (w :: ws) fl (i + m.length) r).map Prod.fst with
                | nil => rw [hsc] at hb; simp at hb
                | cons b0 bs =>
                    rw [hsc] at hb
                    simp only [List.head?_cons, Option.mem_def, Option.some.injEq] at hb
                    subst hb
                    have : b0 ∈ (scanPatF (w :: ws) fl (i + m.length) r).map Prod.fst := by
                      rw [hsc]; exact List.mem_cons_self b0 bs
                    obtain ⟨q, hq, hqb⟩ := List.mem_map.mp this
                    exact ⟨q, hq, hqb⟩
              obtain ⟨q, hq, rfl⟩ := hbm
              have := scanPatF_ge (w :: ws) fl (i + m.length) r q hq
              have hml : 0 < m.length := List.length_pos.mpr hm
              omega
          | none => exact ih (i + 1) cs

/-! ### Summariser helper lemmas -/

theorem mem_dedupFirst {x : Str} :
    ∀ (seen l : List Str), x ∈ dedupFirst seen l → x ∈ l ∧ x ∉ seen := by
  intro seen l
  induction l generalizing seen with
  | nil => intro h; simp [dedupFirst] at h
  | cons y ys ih =>
      intro h
      simp only [dedupFirst] at h
      by_cases hy : y ∈ seen
      · rw [if_pos hy] at h
        obtain ⟨h1, h2⟩ := ih seen h
        exact ⟨List.mem_cons_of_mem y h1, h2⟩
      · rw [if_neg hy] at h
        rcases List.mem_cons.mp h with rfl | h2
        · exact ⟨List.mem_cons_self x ys, hy⟩
        · obtain ⟨h1, h2⟩ := ih (y :: seen) h2
          exact ⟨List.mem_cons_of_mem y h1, fun hx => h2 (List.mem_cons_of_mem y hx)⟩

theorem dedupFirst_nodup : ∀ (seen l : List Str), (dedupFirst seen l).Nodup := by
  intro seen l
  induction l generalizing seen with
  | nil => simp [dedupFirst]
  | cons y ys ih =>
      simp only [dedupFirst]
      by_cases hy : y ∈ seen
      · rw [if_pos hy]; exact ih seen
      · rw [if_neg hy]
        refine List.nodup_cons.mpr ⟨?_, ih (y :: seen)⟩
        intro hyin
        exact (mem_dedupFirst (y :: seen) ys hyin).2 (List.mem_cons_self y seen)

theorem mem_benefitAcc {x : Str} {kws sents : List Str}
    (h : x ∈ benefitAcc kws sents) :
    ∃ s ∈ sents, x = trim s ∧ 5 < wordCount x ∧ hasAny kws (lower x) = true ∧
      negFree (lower x) = true := by
  obtain ⟨s, hs, hf⟩ := List.mem_filterMap.mp h
  simp only [benefitAcc] at hf
  split at hf
  · rename_i hcond
    simp only [Option.some.injEq] at hf
    subst hf
    simp only [Bool.and_eq_true, decide_eq_true_eq] at hcond
    exact ⟨s, hs, rfl, hcond.1.1, hcond.1.2, hcond.2⟩
  · simp at hf

theorem mem_benefits_medical {x : Str} {sents : List Str}
    (h : x ∈ (summarize_policy sents).benefits.medical) :
    negFree (lower x) = true := by
  simp only [summarize_policy] at h
  have h2 := (mem_dedupFirst _ _ (List.mem_of_mem_take h)).1
  exact (mem_benefitAcc h2).choose_spec.2.2.2.2

theorem mem_benefits_financial {x : Str} {sents : List Str}
    (h : x ∈ (summarize_policy sents).benefits.financial) :
    negFree (lower x) = true := by
  simp only [summarize_policy] at h
  have h2 := (mem_dedupFirst _ _ (List.mem_of_mem_take h)).1
  exact (mem_benefitAcc h2).choose_spec.2.2.2.2

theorem mem_benefits_additional {x : Str} {sents : List Str}
    (h : x ∈ (summarize_policy sents).benefits.additional) :
    negFree (lower x) = true := by
  simp only [summarize_policy] at h
  have h2 := (mem_dedupFirst _ _ (List.mem_of_mem_take h)).1
  exact (mem_benefitAcc h2).choose_spec.2.2.2.2

theorem mem_highlights {x : Str} {sents : List Str}
    (h : x ∈ (summarize_policy sents).coverageHighlights) :
    ∃ s ∈ sents, x = trim s ∧ negFree (lower s) = true := by
  simp only [summarize_policy] at h
  obtain ⟨s, hs, hf⟩ := List.mem_filterMap.mp (List.mem_of_mem_take h)
  split at hf
  · rename_i hcond
    simp only [Option.some.injEq] at hf
    subst hf
    simp only [Bool.and_eq_true] at hcond
    exact ⟨s, hs, rfl, hcond.2⟩
  · simp at hf

/-- The shared negation-suppression fact: a string whose lowercased text
contains `"not "` or `"exclude"` is never an entry of any Benefits category
nor of Coverage Highlights, for any sentence sequence. -/
theorem not_mem_summary_of_negHit (sents : List Str) (x : Str)
    (h : containsSub (str "not ") (lower x) = true ∨
         containsSub (str "exclude") (lower x) = true) :
    x ∉ (summarize_policy sents).benefits.medical ∧
    x ∉ (summarize_policy sents).benefits.financial ∧
    x ∉ (summarize_policy sents).benefits.additional ∧
    x ∉ (summarize_policy sents).coverageHighlights := by
  have hneg : negFree (lower x) = false := by
    rcases h with h | h <;> simp [negFree, h]
  refine ⟨?_, ?_, ?_, ?_⟩
  · intro hx; rw [mem_benefits_medical hx] at hneg; simp at hneg
  · intro hx; rw [mem_benefits_financial hx] at hneg; simp at hneg
  · intro hx; rw [mem_benefits_additional hx] at hneg; simp at hneg
  · intro hx
    obtain ⟨s, hs, rfl, hnf⟩ := mem_highlights hx
    have : negFree (lower s) = false := by
      rcases h with h | h <;> simp [negFree, containsSub_of_trim h]
    rw [hnf] at this
    simp at this

/-! ### Association-list lookup lemmas for Key Sections -/

theorem lookupA_eq_none {α β : Type} [DecidableEq α] {k : α} :
    ∀ l : List (α × β), (∀ p ∈ l, p.1 ≠ k) → lookupA k l = none := by
  intro l
  induction l with
  | nil => intro _; rfl
  | cons p ps ih =>
      intro h
      obtain ⟨k1, v⟩ := p
      simp only [lookupA]
      rw [if_neg (h (k1, v) (List.mem_cons_self _ _))]
      exact ih (fun q hq => h q (List.mem_cons_of_mem _ hq))

theorem lookupA_filterMap (F : Str → Option (Str × List Str))
    (hk : ∀ s y, F s = some y → y.1 = capitalize s) :
    ∀ (l : List Str) (sec : Str), sec ∈ l → (l.map capitalize).Nodup →
      lookupA (capitalize sec) (l.filterMap F) = Option.map Prod.snd (F sec) := by
  intro l
  induction l with
  | nil => intro sec h; simp at h
  | cons s0 ss ih =>
      intro sec hmem hnd
      simp only [List.map_cons, List.nodup_cons] at hnd
      obtain ⟨hs0, hnd2⟩ := hnd
      rcases List.mem_cons.mp hmem with rfl | htail
      · cases hF : F sec with
        | some y =>
            rw [List.filterMap_cons_some hF]
            simp only [lookupA]
            rw [if_pos (hk sec y hF)]
            rfl
        | none =>
            rw [List.filterMap_cons_none hF]
            apply lookupA_eq_none
            intro p hp
            obtain ⟨s1, hs1, hFs1⟩ := List.mem_filterMap.mp hp
            rw [hk s1 p hFs1]
            intro heq
            exact hs0 (heq ▸ List.mem_map_of_mem capitalize hs1)
      · have hne : capitalize s0 ≠ capitalize sec := by
          intro he
          exact hs0 (he ▸ List.mem_map_of_mem capitalize htail)
        cases hF : F s0 with
        | some y =>
            rw [List.filterMap_cons_some hF]
            simp only [lookupA]
            rw [if_neg (by rw [hk s0 y hF]; exact hne)]
            exact ih sec htail hnd2
        | none =>
            rw [List.filterMap_cons_none hF]
            exact ih sec htail hnd2

theorem mem_take_append_cons {α : Type} {x : α} {B : List α} :
    ∀ {A : List α} {n : Nat}, A.length < n → x ∈ (A ++ x :: B).take n := by
  intro A
  induction A with
  | nil =>
      intro n h
      cases n with
      | zero => simp at h
      | succ m =>
          rw [List.nil_append, List.take_succ_cons]
          exact List.mem_cons_self x (B.take m)
  | cons a A2 ih =>
      intro n h
      cases n with
      | zero => simp at h
      | succ m =>
          rw [List.cons_append, List.take_succ_cons]
          exact List.mem_cons_of_mem a (ih (by simpa using h))

/-! ### Claim theorems -/

/-- C6: for every input text and sentence sequence, `analyze_policy` is a
total function producing a structurally complete result: the loophole
report has exactly the four fixed categories, in order, each present (as a
possibly empty list), and the summary record carries all its fields; on
the empty string with no sentences the result is the explicit all-empty
record (every list empty, Key Sections absent entirely). -/
theorem analyze_total_shape (t : Str) (sents : List Str) :
    (analyze_policy t sents).loopholes.map Prod.fst =
      ["Ambiguous Language", "Exclusion Clauses", "Limitation Flags",
       "Claim Rejection Risks"] ∧
    (lookupA "Ambiguous Language" (analyze_policy t sents).loopholes).isSome = true ∧
    (lookupA "Exclusion Clauses" (analyze_policy t sents).loopholes).isSome = true ∧
    (lookupA "Limitation Flags" (analyze_policy t sents).loopholes).isSome = true ∧
    (lookupA "Claim Rejection Risks" (analyze_policy t sents).loopholes).isSome = true ∧
    analyze_policy (str "") [] =
      { loopholes := [("Ambiguous Language", []), ("Exclusion Clauses", []),
                      ("Limitation Flags", []), ("Claim Rejection Risks", [])]
      , summary := { keySections := [], coverageHighlights := []
                   , benefits := { medical := [], financial := [], additional := [] }
                   , majorExclusions := [], claimProcess := [] } } := by
  refine ⟨rfl, ?_, ?_, ?_, ?_, by decide⟩ <;>
    simp [analyze_policy, identify_loopholes, lookupA]

/-- C7: the dead fields: for every input, the Limitation Flags loophole
category is present and empty, and the summary's Claim Process is empty;
no rule ever appends to either. -/
theorem dead_fields (t : Str) (sents : List Str) :
    lookupA "Limitation Flags" (analyze_policy t sents).loopholes = some [] ∧
    (analyze_policy t sents).summary.claimProcess = [] := by
  constructor
  · simp [analyze_policy, identify_loopholes, lookupA]
  · rfl

/-- C8: `analyze_policy` is deterministic: it is a pure function of the
input text and of the sentence sequence supplied by the segmentation
collaborator, so two calls on identical inputs give identical results. -/
theorem analyze_deterministic (t1 t2 : Str) (s1 s2 : List Str)
    (ht : t1 = t2) (hs : s1 = s2) :
    analyze_policy t1 s1 = analyze_policy t2 s2 := by
  subst ht hs; rfl

/-- Witness for C8 at a concrete input. -/
theorem analyze_deterministic_witness :
    analyze_policy (str "Premium is subject to change.")
        [str "Premium is subject to change."]
      = analyze_policy (str "Premium is subject to change.")
        [str "Premium is subject to change."] :=
  analyze_deterministic _ _ _ _ rfl rfl

/-- C2: every Exclusion Clauses entry and every Claim Rejection Risks entry
is a substring of the input that starts at a word boundary (the preceding
character, if any, is not a word character), begins with a case-insensitive
match of one of the fixed keywords, and extends up through the next `.` or
`!` inclusive (no terminator occurs in between); a keyword occurrence with
no following terminator yields no entry; and on the two-clause example text
the Exclusion Clauses are exactly the `not covered` and `waiting period`
entries, each ending at its `.`. -/
theorem exclusion_entry_spec :
    (∀ t e, e ∈ exclusionMatches t →
      ∃ kw ∈ exclusionKeywords, ∃ pre post, t = pre ++ e ++ post ∧
        prevIsWord (lastOr pre none) = false ∧ EntryShape kw e) ∧
    (∀ t e, e ∈ rejectionMatches t →
      ∃ kw ∈ rejectionKeywords, ∃ pre post, t = pre ++ e ++ post ∧
        prevIsWord (lastOr pre none) = false ∧ EntryShape kw e) ∧
    exclusionMatches (str "The waiting period applies") = [] ∧
    exclusionMatches
        (str "This is not covered due to exclusions. Please note the waiting period applies.")
      = [str "not covered due to exclusions.", str "waiting period applies."] := by
  refine ⟨?_, ?_, by decide, by decide⟩ <;>
  · intro t e he
    obtain ⟨l, hl, hel⟩ := List.mem_flatten.mp he
    obtain ⟨kw, hkw, rfl⟩ := List.mem_map.mp hl
    obtain ⟨pre, post, h1, h2, h3⟩ := scanKwF_sound kw t.length none t e hel
    exact ⟨kw, hkw, pre, post, h1, h2, h3⟩

/-- Witness for C2: the `not covered` entry of the example text, with its
keyword, decomposition and shape produced by the theorem. -/
theorem exclusion_entry_spec_witness :
    ∃ kw ∈ exclusionKeywords, ∃ pre post,
      str "This is not covered due to exclusions. Please note the waiting period applies."
        = pre ++ str "not covered due to exclusions." ++ post ∧
      prevIsWord (lastOr pre none) = false ∧
      EntryShape kw (str "not covered due to exclusions.") :=
  exclusion_entry_spec.1
    (str "This is not covered due to exclusions. Please note the waiting period applies.")
    (str "not covered due to exclusions.") (by decide)

/-- C10: every Exclusion Clauses and Claim Rejection Risks entry lies within
a single line: no entry contains a newline, because the `.*?` extension
cannot cross `\n`; a keyword whose next terminator lies beyond a newline
yields no entry, as on the concrete two-line text. -/
theorem entries_single_line :
    (∀ t e, e ∈ exclusionMatches t → '\n' ∉ e) ∧
    (∀ t e, e ∈ rejectionMatches t → '\n' ∉ e) ∧
    exclusionMatches (str "The waiting period lasts\nten days.") = [] := by
  have hstep : ∀ (kws : List Str), (∀ kw ∈ kws, '\n' ∉ kw) →
      ∀ (t e : Str), e ∈ (kws.map (fun kw => scanKw kw t)).flatten → '\n' ∉ e := by
    intro kws hnk t e he hnl
    obtain ⟨l, hl, hel⟩ := List.mem_flatten.mp he
    obtain ⟨kw, hkw, rfl⟩ := List.mem_map.mp hl
    obtain ⟨pre, post, _, _, m1, mid, c, hdec, hlow, hterm, hmid⟩ :=
      scanKwF_sound kw t.length none t e hel
    subst hdec
    rcases List.mem_append.mp hnl with h1 | h2
    · rcases List.mem_append.mp h1 with h1a | h1b
      · have h1m : Char.toLower '\n' ∈ m1.map Char.toLower :=
          List.mem_map_of_mem Char.toLower h1a
        rw [hlow] at h1m
        have hnlc : Char.toLower '\n' = '\n' := by decide
        rw [hnlc] at h1m
        exact hnk kw hkw h1m
      · exact (hmid '\n' h1b).2 rfl
    · have hc : c = '\n' := by symm; simpa using h2
      rw [hc] at hterm
      exact absurd hterm (by decide)
  exact ⟨hstep exclusionKeywords (by decide), hstep rejectionKeywords (by decide),
         by decide⟩

/-- Witness for C10: the concrete `not covered` entry contains no newline. -/
theorem entries_single_line_witness :
    '\n' ∉ str "not covered due to exclusions." :=
  entries_single_line.1
    (str "This is not covered due to exclusions. Please note the waiting period applies.")
    (str "not covered due to exclusions.") (by decide)

/-- The example sentence of C3. -/
def hospSent : Str := str "Hospitalization is not covered under this plan."

/-- A sentence sequence with five Major-Exclusions matches before `hospSent`. -/
def exclSents : List Str :=
  [str "Dental work is excluded under clause one.",
   str "Dental work is excluded under clause two.",
   str "Dental work is excluded under clause three.",
   str "Dental work is excluded under clause four.",
   str "Dental work is excluded under clause five.",
   hospSent]

/-- C3 counterexample: the claim says that on ANY input whose sentence
sequence contains `"Hospitalization is not covered under this plan."` that
sentence appears in Major Exclusions; but Major Exclusions keeps only the
first five matching sentences, so with five earlier exclusion sentences it
is absent. -/
theorem negation_suppression_counterexample :
    hospSent ∈ exclSents ∧
    hospSent ∉ (summarize_policy exclSents).majorExclusions := by decide

/-- C3 amended: a sentence whose lowercased text contains `"not "` or
`"exclude"` never appears in any Benefits category nor in Coverage
Highlights; a sentence matching the Major Exclusions keywords (no negation
suppression there) does appear in Major Exclusions provided fewer than five
earlier sentences match those keywords (the list keeps only the first
five); and on the one-sentence input the example sentence lands only in
Major Exclusions, its text containing `"not "` and `"not covered"`. -/
theorem negation_suppression_amended :
    (∀ sents x, (containsSub (str "not ") (lower x) = true ∨
                 containsSub (str "exclude") (lower x) = true) →
       x ∉ (summarize_policy sents).benefits.medical ∧
       x ∉ (summarize_policy sents).benefits.financial ∧
       x ∉ (summarize_policy sents).benefits.additional ∧
       x ∉ (summarize_policy sents).coverageHighlights) ∧
    (∀ pre x post, hasAny majorExclusionKeywords (lower x) = true →
       (summarize_policy pre).majorExclusions.length < 5 →
       trim x ∈ (summarize_policy (pre ++ x :: post)).majorExclusions) ∧
    (hospSent ∉ (summarize_policy [hospSent]).benefits.medical ∧
     hospSent ∉ (summarize_policy [hospSent]).benefits.financial ∧
     hospSent ∉ (summarize_policy [hospSent]).benefits.additional ∧
     hospSent ∉ (summarize_policy [hospSent]).coverageHighlights ∧
     hospSent ∈ (summarize_policy [hospSent]).majorExclusions ∧
     containsSub (str "not ") (lower hospSent) = true ∧
     containsSub (str "not covered") (lower hospSent) = true) := by
  refine ⟨not_mem_summary_of_negHit, ?_, by decide⟩
  intro pre x post hq hlen
  simp only [summarize_policy] at hlen ⊢
  rw [List.length_take] at hlen
  have hcons : List.filterMap (fun s => if hasAny majorExclusionKeywords (lower s)
        then some (trim s) else none) (x :: post)
      = trim x :: List.filterMap (fun s => if hasAny majorExclusionKeywords (lower s)
        then some (trim s) else none) post := by
    simp [hq]
  rw [List.filterMap_append, hcons]
  exact mem_take_append_cons (by omega)

/-- Witness for C3 (amended): with no earlier exclusion sentences, the
example sentence does appear in Major Exclusions. -/
theorem negation_suppression_amended_witness :
    trim hospSent ∈ (summarize_policy ([] ++ hospSent :: [])).majorExclusions :=
  negation_suppression_amended.2.1 [] hospSent [] (by decide) (by decide)

/-- Seven distinct Financial-qualifying sentences, the first repeated, in
document order. -/
def dupSents : List Str :=
  [str "Premium plan option one gives a generous discount today.",
   str "Premium plan option two gives a generous discount today.",
   str "Premium plan option one gives a generous discount today.",
   str "Premium plan option three gives a generous discount today.",
   str "Premium plan option four gives a generous discount today.",
   str "Premium plan option five gives a generous discount today.",
   str "Premium plan option six gives a generous discount today.",
   str "Premium plan option seven gives a generous discount today."]

/-- C4: each of the three Benefits categories (Medical, Financial,
Additional) is the accumulated qualifying sentences, deduplicated
preserving first occurrence and truncated to five, hence duplicate-free
and of length at most five; with seven distinct qualifying Financial
sentences (one string occurring twice) the result is exactly the first
five distinct ones in document order. -/
theorem benefits_dedup_truncate (sents : List Str) :
    ((summarize_policy sents).benefits.medical
        = (dedupFirst [] (benefitAcc medicalKeywords sents)).take 5 ∧
      (summarize_policy sents).benefits.medical.Nodup ∧
      (summarize_policy sents).benefits.medical.length ≤ 5) ∧
    ((summarize_policy sents).benefits.financial
        = (dedupFirst [] (benefitAcc financialKeywords sents)).take 5 ∧
      (summarize_policy sents).benefits.financial.Nodup ∧
      (summarize_policy sents).benefits.financial.length ≤ 5) ∧
    ((summarize_policy sents).benefits.additional
        = (dedupFirst [] (benefitAcc additionalKeywords sents)).take 5 ∧
      (summarize_policy sents).benefits.additional.Nodup ∧
      (summarize_policy sents).benefits.additional.length ≤ 5) ∧
    (summarize_policy dupSents).benefits.financial
      = [str "Premium plan option one gives a generous discount today.",
         str "Premium plan option two gives a generous discount today.",
         str "Premium plan option three gives a generous discount today.",
         str "Premium plan option four gives a generous discount today.",
         str "Premium plan option five gives a generous discount today."] := by
  refine ⟨⟨rfl, ?_, ?_⟩, ⟨rfl, ?_, ?_⟩, ⟨rfl, ?_, ?_⟩, by decide⟩ <;>
    first
      | exact List.Nodup.sublist (List.take_sublist 5 _) (dedupFirst_nodup [] _)
      | · simp only [summarize_policy]
          rw [List.length_take]
          omega

/-- The concrete sentence used for the C5 witness. -/
def covSent : Str := str "This coverage section explains the full terms today."

/-- C5: for each of the six fixed section names, the Key Sections map holds,
under the capitalized name, the first three trimmed sentences whose
lowercased text contains the name and whose whitespace-split word count
exceeds five; the key is absent exactly when no sentence qualifies. -/
theorem key_sections_spec (sents : List Str) (sec : Str) (hsec : sec ∈ sectionNames) :
    lookupA (capitalize sec) (summarize_policy sents).keySections
      = (if (sents.filterMap (fun s =>
               if containsSub sec (lower s) && decide (5 < wordCount s)
               then some (trim s) else none)).isEmpty
         then none
         else some ((sents.filterMap (fun s =>
               if containsSub sec (lower s) && decide (5 < wordCount s)
               then some (trim s) else none)).take 3)) := by
  have hnd : (sectionNames.map capitalize).Nodup := by decide
  have hk : ∀ s y,
      (fun sec2 =>
        if (sents.filterMap (fun s2 =>
              if containsSub sec2 (lower s2) && decide (5 < wordCount s2)
              then some (trim s2) else none)).isEmpty
        then none
        else some (capitalize sec2,
          (sents.filterMap (fun s2 =>
              if containsSub sec2 (lower s2) && decide (5 < wordCount s2)
              then some (trim s2) else none)).take 3)) s = some y →
      y.1 = capitalize s := by
    intro s y h
    simp only at h
    split at h
    · simp at h
    · simp only [Option.some.injEq] at h
      rw [← h]
  have := lookupA_filterMap _ hk sectionNames sec hsec hnd
  simp only [summarize_policy]
  rw [this]
  by_cases hq : (sents.filterMap (fun s =>
      if containsSub sec (lower s) && decide (5 < wordCount s)
      then some (trim s) else none)).isEmpty = true
  · rw [if_pos hq, if_pos hq]; rfl
  · rw [if_neg hq, if_neg hq]; rfl

/-- Witness for C5: the single-sentence input stores the sentence under
`Coverage`. -/
theorem key_sections_spec_witness :
    lookupA (capitalize (str "coverage"))
        (summarize_policy [covSent]).keySections = some [covSent] :=
  (key_sections_spec [covSent] (str "coverage") (by decide)).trans (by decide)

/-- A qualifying medical sentence containing `"cannot "` but no standalone
word `not`. -/
def cannotSent : Str := str "Members cannot claim any extra health benefits here."

/-- A qualifying medical sentence ending in `"not."` (no trailing space). -/
def notDotSent : Str := str "Surgery benefits are provided when members ask, not."

/-- A qualifying medical sentence containing `"not,"` (no trailing space). -/
def notCommaSent : Str := str "Surgery benefits apply, not, without any preconditions today."

/-- C9: the negation test looks for the four-character substring `"not "`
anywhere in the lowercased sentence, so it fires inside longer words: any
entry text containing `"cannot "` is excluded from every Benefits category
and from Coverage Highlights; while sentences whose only `not` is followed
by `.` or `,` are not suppressed and do appear. -/
theorem not_substring_suppression :
    (∀ sents x, containsSub (str "cannot ") (lower x) = true →
       x ∉ (summarize_policy sents).benefits.medical ∧
       x ∉ (summarize_policy sents).benefits.financial ∧
       x ∉ (summarize_policy sents).benefits.additional ∧
       x ∉ (summarize_policy sents).coverageHighlights) ∧
    ((summarize_policy [cannotSent]).benefits.medical = [] ∧
     (summarize_policy [cannotSent]).coverageHighlights = []) ∧
    ((summarize_policy [notDotSent]).benefits.medical = [notDotSent] ∧
     (summarize_policy [notDotSent]).coverageHighlights = [notDotSent]) ∧
    (summarize_policy [notCommaSent]).benefits.medical = [notCommaSent] := by
  refine ⟨?_, by decide, by decide, by decide⟩
  intro sents x h
  exact not_mem_summary_of_negHit sents x (Or.inl (containsSub_trans (by decide) h))

/-- Witness for C9: the `cannot` sentence is kept out of Medical Benefits. -/
theorem not_substring_suppression_witness :
    cannotSent ∉ (summarize_policy [cannotSent]).benefits.medical :=
  (not_substring_suppression.1 [cannotSent] cannotSent (by decide)).1

/-- Stated from the spec's words, for comparison with the code: insert a
position-tagged match into a position-sorted list. -/
def insertByPos (q : Nat × Str) : List (Nat × Str) → List (Nat × Str)
  | [] => [q]
  | x :: xs => if q.1 < x.1 then q :: x :: xs else x :: insertByPos q xs

/-- Insertion sort by match position. -/
def sortByPos : List (Nat × Str) → List (Nat × Str)
  | [] => []
  | x :: xs => insertByPos x (sortByPos xs)

/-- Stated from the spec's words, for comparison with the code: all matches
of the five ambiguous patterns listed in ascending text order of their
match positions (what C1 claims the category to be). -/
def ambiguousInTextOrder (t : Str) : List Str :=
  (sortByPos ((ambiguousPatterns.map (fun p => scanPatF p t.length 0 t)).flatten)).map
    Prod.snd

/-- A text in which a `subject to` match precedes a `may not` match. -/
def crossText : Str := str "It is subject to review. You may not claim."

/-- C1 counterexample: the category is NOT listed in text order of the match
positions: the code appends all matches of `may not` before all matches of
`subject to` (pattern-list order), even though `subject to` occurs first in
the text. -/
theorem ambiguous_text_order_counterexample :
    ambiguousMatches crossText = [str "may not", str "subject to"] ∧
    ambiguousInTextOrder crossText = [str "subject to", str "may not"] ∧
    ambiguousMatches crossText ≠ ambiguousInTextOrder crossText := by decide

/-- C1 amended: the Ambiguous Language category is the concatenation, over
the five fixed patterns in their fixed list order, of each pattern's
non-overlapping case-insensitive matches; within each pattern the matches
are in ascending text order of their positions; and on a text containing
exactly one occurrence of `subject to approval.` the category is exactly
`["subject to"]` (the matched substring, not the full sentence). -/
theorem ambiguous_grouped_by_pattern (t : Str) :
    ambiguousMatches t = (ambiguousPatterns.map (fun p => findAllPat p t)).flatten ∧
    (∀ p, p ∈ ambiguousPatterns →
      List.Chain' (· < ·) ((scanPatF p t.length 0 t).map Prod.fst)) ∧
    ambiguousMatches (str "This claim is subject to approval.") = [str "subject to"] := by
  refine ⟨rfl, ?_, by decide⟩
  intro p hp
  fin_cases hp <;> exact scanPatF_chain (by decide) t.length 0 t

/-- Witness for C1 (amended): the `subject to` pattern's match positions on
the counterexample text are strictly increasing. -/
theorem ambiguous_grouped_by_pattern_witness :
    List.Chain' (· < ·)
      ((scanPatF [str "subject", str "to"] crossText.length 0 crossText).map Prod.fst) :=
  (ambiguous_grouped_by_pattern crossText).2.1 [str "subject", str "to"] (by decide)

end DS
